import Mathlib

/-!
# Verification of the docxml core against its specification

This file gives a shallow embedding of the core of the `docxml` repository:

* the structural repair pass `bumpInvalidChildrenToAncestry` over the JSX AST
  (from `src/utilities/parameter-checking.test.ts`, lines 150-183);
* the async child flattener `ensureFlatResolvedArray` / `recursiveFlattenArray`
  (same file, lines 117-144), with promises modelled as already-resolved
  wrappers, since the source awaits them strictly sequentially via `reduce`;
* the `TextAddition`, `Paragraph` and `Settings` encode/decode operations
  (`src/components/TextAddition.ts`, `src/components/Paragraph.ts`,
  `src/files/Settings.ts`);
* the nested parameter check `checkForForbiddenParameters` with
  `isValidNumber` (its implementation file is absent; modelled from the spec).

Theorems at the end settle the specification's claims about these
definitions.
-/

namespace Docxml

/-! ## The JSX AST and the structural repair pass

`AstNode`s are what the JSX pragma produces: an element carries its component
(whose static data are a type name, the accepted child type names, and the
mixed-content flag) plus ordered children; a child may also be a raw string.
Props are irrelevant to repair and carried opaquely so that the shallow clone
made by the splice (`\x7b...node, children: ...\x7d`) is represented
faithfully. -/

structure Component where
  type : String
  children : List String
  mixed : Bool
deriving DecidableEq, Repr

inductive AstNode where
  | text (s : String)
  | elem (comp : Component) (props : Nat) (children : List AstNode)

namespace AstNode

/-- The validity test from `bumpInvalidChildrenToAncestry`: a string child is
valid iff the parent component is mixed; an element child is valid iff its
component type name is in the parent component's accepted-children list. -/
def validChild (parent : Component) : AstNode → Bool
  | .text _ => parent.mixed
  | .elem c _ _ => parent.children.contains c.type

/-- Scan a (already recursively repaired) children list left to right for the
first invalid child, returning the valid prefix, the invalid child, and the
trailing siblings — exactly the three pieces the `splice` calls in
`bumpInvalidChildrenToAncestry` produce. -/
def splitInvalid (parent : Component) : List AstNode →
    Option (List AstNode × AstNode × List AstNode)
  | [] => none
  | c :: cs =>
    if validChild parent c then
      match splitInvalid parent cs with
      | none => none
      | some (before, bad, after) => some (c :: before, bad, after)
    else
      some ([], c, cs)

mutual
/-- Size measure used to bound the number of splits the repair walk performs:
`1` for a text node, `1 + 2 * (sum over children)` for an element. Moving an
invalid child up one level strictly decreases the sum of this measure over
the working list. -/
def psi : AstNode → Nat
  | .text _ => 1
  | .elem _ _ cs => 1 + 2 * psiList cs

/-- Measure `psi` summed over a list of trees. -/
def psiList : List AstNode → Nat
  | [] => 0
  | t :: ts => psi t + psiList ts
end

/-- The repair walk of `bumpInvalidChildrenToAncestry`, with a fuel parameter
consumed at every recursive call (sufficient fuel is computed below; the
source relies on the same convergence, per the spec's single-pass note).
Processing a list: a string entry is skipped (`typeof node === 'string'`);
for an element entry the walk first repairs its children recursively
(`walk(node.children)`), then scans them for the first invalid child. If one
is found at position `i`, the two `splice` calls truncate the element to the
valid prefix and insert, right after it in the working list, the invalid
child followed by a shallow clone of the element holding the trailing
children; the loop then continues with those inserted entries. -/
def walkF : Nat → List AstNode → Option (List AstNode)
  | 0, _ => none
  | _ + 1, [] => some []
  | n + 1, .text s :: rest => (walkF n rest).map (.text s :: ·)
  | n + 1, .elem comp props cs :: rest =>
    match walkF n cs with
    | none => none
    | some cs' =>
      match AstNode.splitInvalid comp cs' with
      | none => (walkF n rest).map (.elem comp props cs' :: ·)
      | some (before, bad, after) =>
        (walkF n (bad :: .elem comp props after :: rest)).map
          (.elem comp props before :: ·)

mutual
/-- A tree is valid when every element node's children each satisfy
`validChild` for that node's component — the accepted-children invariant of
the spec, everywhere in the tree. -/
def validTree : AstNode → Bool
  | .text _ => true
  | .elem comp _ cs => validForest comp cs

/-- All trees in the list are valid children of `comp` and valid trees. -/
def validForest (comp : Component) : List AstNode → Bool
  | [] => true
  | c :: cs => validChild comp c && validTree c && validForest comp cs
end

mutual
/-- The raw text leaves of a tree, in document order. -/
def texts : AstNode → List String
  | .text s => [s]
  | .elem _ _ cs => textsList cs

/-- The raw text leaves of a list of trees, in document order. -/
def textsList : List AstNode → List String
  | [] => []
  | t :: ts => texts t ++ textsList ts
end

/-- The repair entry point `bumpInvalidChildrenToAncestry`: run the walk on
the singleton working list; if more than one (or zero) top-level entries
remain, throw `DXE030`; otherwise return the single root. Fuel
`psiList [t] + 1` is sufficient (proved below), so the out-of-fuel branch is
unreachable. -/
def bumpInvalidChildrenToAncestry (t : AstNode) : Except String AstNode :=
  match walkF (psiList [t] + 1) [t] with
  | some [r] => .ok r
  | some _ => .error "DXE030: Some AST nodes could not be given a valid position."
  | none => .error "out of fuel"

/-- A document component accepting paragraphs and blocks. -/
def exDoc : Component := ⟨"Document", ["Paragraph", "Block"], false⟩

/-- A paragraph component accepting only text runs. -/
def exPara : Component := ⟨"Paragraph", ["Text"], false⟩

/-- A block component accepting nothing. -/
def exBlock : Component := ⟨"Block", [], false⟩

/-- A text-run component with mixed content (raw strings allowed). -/
def exText : Component := ⟨"Text", [], true⟩

/-- The spec's repair scenario: a paragraph containing an illegal nested
block between two text runs. -/
def exTree : AstNode :=
  .elem exDoc 0 [.elem exPara 0
    [.elem exText 0 [.text "a"], .elem exBlock 0 [], .elem exText 0 [.text "b"]]]

/-- The expected repair of `exTree`: two paragraphs flanking the block. -/
def exRepaired : AstNode :=
  .elem exDoc 0 [.elem exPara 0 [.elem exText 0 [.text "a"]],
    .elem exBlock 0 [], .elem exPara 0 [.elem exText 0 [.text "b"]]]

end AstNode

/-! ## The async child flattener

`ensureFlatResolvedArray` / `recursiveFlattenArray` from
`src/utilities/parameter-checking.test.ts` (the JSX pragma module). Promises
are modelled as already-resolved wrappers: the source awaits every item
before inspecting it and chains the awaits strictly sequentially through
`reduce`, so the order in which promises complete cannot influence the
result; only declaration order can. -/

namespace Flatten

/-- JavaScript values as far as `filter(Boolean)` can tell them apart. -/
inductive JSVal where
  | undef
  | jsNull
  | jsBool (b : Bool)
  | num (n : Int)
  | str (s : String)
  | obj (id : Nat)
deriving DecidableEq, Repr

/-- JavaScript truthiness: `undefined`, `null`, `false`, `0` and the empty
string are falsy; everything else here is truthy. -/
def JSVal.truthy : JSVal → Bool
  | .undef => false
  | .jsNull => false
  | .jsBool b => b
  | .num n => n != 0
  | .str s => s != ""
  | .obj _ => true

/-- A JSX child argument: a plain (non-array) value, an array of children,
or a promise of either, nested arbitrarily. -/
inductive Child where
  | atom (v : JSVal)
  | arr (items : List Child)
  | prom (c : Child)

mutual
/-- Source `recursiveFlattenArray(flat, item)`: await the item; a non-array value
is appended and the accumulated list is run through `filter(Boolean)`; an
array is flattened by an inner `reduce(recursiveFlattenArray, [])` whose
result is appended to the accumulator. -/
def recursiveFlattenArray (flat : List JSVal) : Child → List JSVal
  | .prom c => recursiveFlattenArray flat c
  | .atom v => (flat ++ [v]).filter JSVal.truthy
  | .arr items => flat ++ reduceFlatten [] items

/-- The inner `iitem.reduce(recursiveFlattenArray, Promise.resolve([]))`:
a strictly left-to-right fold, hence declaration order. -/
def reduceFlatten (acc : List JSVal) : List Child → List JSVal
  | [] => acc
  | c :: cs => reduceFlatten (recursiveFlattenArray acc c) cs
end

/-- Source `ensureFlatResolvedArray(children)`: the singleton `[children]` is
filtered for `undefined`/`null` (before awaiting — a promise is never
`null`), then reduced with `recursiveFlattenArray` from `[]`. -/
def ensureFlatResolvedArray : Child → List JSVal
  | .atom .undef => []
  | .atom .jsNull => []
  | c => recursiveFlattenArray [] c

mutual
/-- The atoms of a child structure in declaration order — the order in
which the children were written down, ignoring promise wrappers. -/
def declarationOrder : Child → List JSVal
  | .atom v => [v]
  | .prom c => declarationOrder c
  | .arr items => declarationOrderList items

/-- Map `declarationOrder` over a list of children, left to right. -/
def declarationOrderList : List Child → List JSVal
  | [] => []
  | c :: cs => declarationOrder c ++ declarationOrderList cs
end

/-- An example child structure for the witnesses: nested arrays and
promises with all-truthy atoms. -/
def exChildren : Child :=
  .arr [.prom (.atom (.str "a")),
    .arr [.atom (.num 1), .prom (.arr [.atom (.str "b")])],
    .prom (.prom (.atom (.obj 0)))]

/-- A child list containing every kind of falsy item next to one truthy
number. -/
def exFalsy : Child :=
  .arr [.atom (.jsBool false), .atom (.num 0), .atom (.str ""),
    .atom .jsNull, .prom (.atom .undef), .atom (.num 7)]

end Flatten

/-! ## XML nodes and the tracked-change components

A minimal XML node type, plus the encode/decode operations of the `Text`,
`TextAddition`, `TextDeletion` and `Paragraph` components. `TextAddition.ts`
and `Paragraph.ts` are in the sources; `Text.ts`, `TextDeletion.ts` and the
utilities `createChildComponentsFromNodes` / `getChangeInformation` are not
and are modelled from the spec where indicated. -/

namespace Xml

/-- An XML node: an element with a qualified name, attributes and children,
or a text node. -/
inductive XmlNode where
  | elem (name : String) (attrs : List (String × String)) (children : List XmlNode)
  | textNode (s : String)
deriving Repr

/-- First attribute value with the given qualified name, if any. -/
def lookupAttr (attrs : List (String × String)) (k : String) : Option String :=
  (attrs.find? (fun kv => kv.1 == k)).map (fun kv => kv.2)

/-- Whether the node is an element whose name is one of the given names —
the effect of an XPath child selection such as `./(w:r | w:del | w:ins)`
(text nodes are never selected). -/
def elemNameIn (names : List String) : XmlNode → Bool
  | .elem nm _ _ => names.contains nm
  | .textNode _ => false

/-- The change-tracking metadata shared by tracked-edit components: id,
author, and a timestamp in milliseconds. -/
structure ChangeInformation where
  id : String
  author : String
  date : Nat
deriving DecidableEq, Repr

/-- The character for a decimal digit value, read off a literal table. -/
def digitChar (d : Nat) : Char := "0123456789".data.getD d '0'

/-- Decimal digits of `n`, most significant first (fuel-driven; `fuel ≥ n`
suffices since `n` shrinks by a factor of ten per step). -/
def natDigitsAux : Nat → Nat → List Char
  | 0, _ => []
  | fuel + 1, n =>
    if n = 0 then [] else natDigitsAux fuel (n / 10) ++ [digitChar (n % 10)]

/-- Modelled from the spec: the ISO-8601 serialization of a millisecond
timestamp (`date.toISOString()`); stood in for by the decimal millisecond
count, which is injective and parsed back exactly, as §4.4 requires. -/
def isoOfMs (ms : Nat) : String :=
  if ms = 0 then "0" else String.mk (natDigitsAux ms ms)

/-- The value of a decimal digit character, if it is one, computed from the
character code. -/
def digitVal (c : Char) : Option Nat :=
  if 48 ≤ c.toNat && c.toNat ≤ 57 then some (c.toNat - 48) else none

/-- Accumulate a decimal number from its digit characters. -/
def parseIsoAux : List Char → Nat → Option Nat
  | [], acc => some acc
  | c :: cs, acc =>
    match digitVal c with
    | none => none
    | some d => parseIsoAux cs (acc * 10 + d)

/-- Modelled from the spec: parsing an ISO-8601 date back to a millisecond
timestamp; inverse of `isoOfMs`. -/
def parseIsoMs (s : String) : Option Nat :=
  match s.data with
  | [] => none
  | cs => parseIsoAux cs 0

/-- Modelled from the spec: `getChangeInformation` (from the absent
`utilities/changes.ts`) reads the `w:id`, `w:author` and `w:date`
attributes, failing when one is absent or the date does not parse
(`MalformedChangeMetadataError`). -/
def getChangeInformation : XmlNode → Option ChangeInformation
  | .elem _ attrs _ => do
    let i ← lookupAttr attrs "w:id"
    let a ← lookupAttr attrs "w:author"
    let d ← lookupAttr attrs "w:date"
    let ms ← parseIsoMs d
    pure ⟨i, a, ms⟩
  | .textNode _ => none

/-- A document node of the tracked-text fragment of the model: a text run,
or a tracked insertion/deletion carrying change metadata and children. -/
inductive DocNode where
  | text (content : String)
  | textAddition (props : ChangeInformation) (children : List DocNode)
  | textDeletion (props : ChangeInformation) (children : List DocNode)
deriving Repr

mutual
/-- Encoding. The `TextAddition` case is `TextAddition.toNode` from the
source: `element w:ins` with `w:id`, `w:author`, `w:date` attributes (the
date via `toISOString`) and the encoded children. The `Text` and
`TextDeletion` cases are modelled from the spec: a text run is a `w:r`
element wrapping its content, a tracked deletion is the `w:del` counterpart
of `w:ins` (§6: element `w:ins` (insertion) / corresponding deletion
element, each carrying `w:id`, `w:author`, `w:date`). -/
def DocNode.toNode : DocNode → XmlNode
  | .text s => .elem "w:r" [] [.elem "w:t" [] [.textNode s]]
  | .textAddition p cs =>
    .elem "w:ins"
      [("w:id", p.id), ("w:author", p.author), ("w:date", isoOfMs p.date)]
      (DocNode.toNodeList cs)
  | .textDeletion p cs =>
    .elem "w:del"
      [("w:id", p.id), ("w:author", p.author), ("w:date", isoOfMs p.date)]
      (DocNode.toNodeList cs)

/-- Map `toNode` over a children list, in order. -/
def DocNode.toNodeList : List DocNode → List XmlNode
  | [] => []
  | c :: cs => DocNode.toNode c :: DocNode.toNodeList cs
end

/-- The `matchesNode` predicates, dispatched by registered type name. The
`TextAddition` case (`node.nodeName === 'w:ins'`) is from the source; the
`Text` and `TextDeletion` cases are modelled from the spec and from the
element names `Paragraph.fromNode` selects for them. -/
def matchesName (candidate : String) : XmlNode → Bool
  | .elem nm _ _ =>
    match candidate with
    | "Text" => nm == "w:r"
    | "TextAddition" => nm == "w:ins"
    | "TextDeletion" => nm == "w:del"
    | _ => false
  | .textNode _ => false

/-- Errors during decode. -/
inductive DecodeError where
  | noMatchingType
  | malformedChangeMetadata
deriving DecidableEq, Repr

/-- The text content of a run: the string inside the first `w:t` child.
Modelled from the spec (`Text.ts` is absent). -/
def textContentOf : List XmlNode → String
  | .elem "w:t" _ (.textNode s :: _) :: _ => s
  | _ :: rest => textContentOf rest
  | [] => ""

/-- The accepted-children type names of `TextAddition` (its static
`children` field) and also of `Paragraph`. -/
def trackedCandidates : List String := ["Text", "TextAddition", "TextDeletion"]

mutual
/-- Modelled from the spec: `createChildComponentsFromNodes` /
`dispatchDecode` (§4.1, from the absent `utilities/components.ts`) walks the
ordered candidate type names, the first whose `matches` predicate holds
decodes the node, and no match is the terminal `NoMatchingTypeError`. -/
def dispatchDecode (candidates : List String) (n : XmlNode) :
    Except DecodeError DocNode :=
  match candidates.find? (fun c => matchesName c n) with
  | none => .error .noMatchingType
  | some c => decodeComponent c n

/-- Decode a node as the named component type. -/
def decodeComponent (c : String) (n : XmlNode) : Except DecodeError DocNode :=
  match c with
  | "Text" => textFromNode n
  | "TextAddition" => textAdditionFromNode n
  | "TextDeletion" => textDeletionFromNode n
  | _ => .error .noMatchingType

/-- Modelled from the spec: `Text.fromNode` (absent `Text.ts`) reads the
run's text content. -/
def textFromNode (n : XmlNode) : Except DecodeError DocNode :=
  match n with
  | .elem _ _ cs => .ok (.text (textContentOf cs))
  | .textNode _ => .error .noMatchingType

/-- Source `TextAddition.fromNode`: read the change metadata with
`getChangeInformation`, then build the children from
`createChildComponentsFromNodes(this.children,
evaluateXPathToNodes('./w:r', node))` — NOTE the XPath selects only `w:r`
child elements. -/
def textAdditionFromNode (n : XmlNode) : Except DecodeError DocNode :=
  match n with
  | .elem _ _ children =>
    match getChangeInformation n with
    | none => .error .malformedChangeMetadata
    | some p =>
      match decodeSelected ["w:r"] trackedCandidates children with
      | .error e => .error e
      | .ok ds => .ok (.textAddition p ds)
  | .textNode _ => .error .noMatchingType

/-- Modelled from the spec: `TextDeletion.fromNode` (absent
`TextDeletion.ts`), the deletion counterpart of `TextAddition.fromNode`. -/
def textDeletionFromNode (n : XmlNode) : Except DecodeError DocNode :=
  match n with
  | .elem _ _ children =>
    match getChangeInformation n with
    | none => .error .malformedChangeMetadata
    | some p =>
      match decodeSelected ["w:r"] trackedCandidates children with
      | .error e => .error e
      | .ok ds => .ok (.textDeletion p ds)
  | .textNode _ => .error .noMatchingType

/-- Select the child elements whose names are in `names` (the XPath child
axis step) and decode each selected node against the candidate type names;
non-selected children are skipped before the dispatcher ever sees them. -/
def decodeSelected (names : List String) (candidates : List String) :
    List XmlNode → Except DecodeError (List DocNode)
  | [] => .ok []
  | x :: xs =>
    if elemNameIn names x then
      match dispatchDecode candidates x with
      | .error e => .error e
      | .ok d =>
        match decodeSelected names candidates xs with
        | .error e => .error e
        | .ok ds => .ok (d :: ds)
    else
      decodeSelected names candidates xs
end

/-- The decoded shape of a paragraph: its style prop (the property-group
codecs are opaque per the spec; only the `style` value is modelled) and its
children. -/
structure ParagraphModel where
  style : Option String
  children : List DocNode
deriving Repr

/-- The XPath `./w:pPr/w:pStyle/@w:val` from `Paragraph.fromNode`. -/
def styleOf : XmlNode → Option String
  | .elem _ _ children => do
    let ppr ← children.find? (elemNameIn ["w:pPr"])
    match ppr with
    | .elem _ _ pprChildren => do
      let pstyle ← pprChildren.find? (elemNameIn ["w:pStyle"])
      match pstyle with
      | .elem _ attrs _ => lookupAttr attrs "w:val"
      | .textNode _ => none
    | .textNode _ => none
  | .textNode _ => none

/-- Source `Paragraph.fromNode`: the XPath map selects
`./(w:r | w:del | w:ins)` as the children to decode (and `./w:pPr` for the
property bag), then dispatches them against
`['Text', 'TextAddition', 'TextDeletion']`. -/
def paragraphFromNode (n : XmlNode) : Except DecodeError ParagraphModel :=
  match n with
  | .elem _ _ children =>
    match decodeSelected ["w:r", "w:del", "w:ins"] trackedCandidates children with
    | .error e => .error e
    | .ok ds => .ok ⟨styleOf n, ds⟩
  | .textNode _ => .error .noMatchingType

/-- Change metadata for the round-trip example. -/
def exChange : ChangeInformation := ⟨"1", "A", 1577836800000⟩

/-- A `TextAddition` whose single child is itself a `TextAddition` — an
accepted child per the component's static `children` list. -/
def exIns : DocNode := .textAddition exChange [.textAddition ⟨"2", "B", 0⟩ []]

/-- A child element of a paragraph that no accepted candidate type
matches. -/
def exAlien : XmlNode := .elem "w:bookmarkStart" [] []

/-- A `w:p` element containing the alien child followed by a text run. -/
def exParagraphNode : XmlNode :=
  .elem "w:p" [] [exAlien, .elem "w:r" [] [.elem "w:t" [] [.textNode "x"]]]

end Xml

/-! ## The settings part

`Settings.toNode` and the settings query of `Settings.fromArchive`, from
`src/files/Settings.ts`, plus the archive/relationships surface it needs. -/

namespace SettingsPart
open Xml

/-- Source `Settings.toNode`: a `w:settings` document whose only
conditional content is `element w:trackRevisions` (with no attributes — the
`w:val` attribute is commented out in the source) when
`isTrackChangesEnabled` holds. -/
def settingsToNode (isTrackChangesEnabled : Bool) : XmlNode :=
  .elem "w:settings" []
    (if isTrackChangesEnabled then [.elem "w:trackRevisions" [] []] else [])

/-- Modelled from the spec: `ooxml:is-on-off-enabled` (from the absent
xquery utilities) decides an OOXML on/off attribute value; an empty
sequence — no element or no attribute — is disabled, matching the source's
`DEFAULT_SETTINGS` of `false`. -/
def isOnOffEnabled : Option String → Bool
  | some v => v == "true" || v == "1" || v == "on"
  | none => false

/-- The settings query of `Settings.fromArchive` from the source:
`"isTrackChangesEnabled": ooxml:is-on-off-enabled(./w:trackChanges/@w:val)`
— NOTE it inspects `w:trackChanges`, not the `w:trackRevisions` element the
writer emits. -/
def parseSettingsTrackChanges (doc : XmlNode) : Bool :=
  match doc with
  | .elem _ _ children =>
    isOnOffEnabled (do
      let tc ← children.find? (elemNameIn ["w:trackChanges"])
      match tc with
      | .elem _ attrs _ => lookupAttr attrs "w:val"
      | .textNode _ => none)
  | .textNode _ => false

/-- An archive: named resources holding XML documents. -/
structure Archive where
  entries : List (String × XmlNode)

/-- Source `archive.readXml(location)`. -/
def Archive.readXml (a : Archive) (loc : String) : Option XmlNode :=
  (a.entries.find? (fun kv => kv.1 == loc)).map (fun kv => kv.2)

/-- Split a character list at its last slash: the part before it and the
part after it, or `none` when there is no slash. -/
def lastSlashSplit : List Char → Option (List Char × List Char)
  | [] => none
  | c :: cs =>
    match lastSlashSplit cs with
    | some (d, b) => some (c :: d, b)
    | none => if c = '/' then some ([], cs) else none

/-- The sibling companion resource path for a part:
`dirname(location)/_rels/basename(location).rels`. -/
def relsLocationOf (loc : String) : String :=
  match lastSlashSplit loc.data with
  | some (d, b) => String.mk d ++ "/_rels/" ++ String.mk b ++ ".rels"
  | none => "./_rels/" ++ loc ++ ".rels"

/-- A part's relationship collection: its location and its records (kept
opaque as the referenced element names). -/
structure Relationships where
  location : String
  items : List String
deriving DecidableEq, Repr

/-- Modelled from the spec: `Relationships.fromArchive` (absent
`Relationships.ts`) reads the companion resource, failing when it is absent
or unreadable; the failure is caught by the calling part. -/
def Relationships.fromArchive (a : Archive) (loc : String) :
    Except String Relationships :=
  match a.readXml loc with
  | none => .error "relationships could not be resolved"
  | some (.elem _ _ cs) =>
    .ok ⟨loc, cs.filterMap (fun c => match c with
      | .elem nm _ _ => some nm
      | .textNode _ => none)⟩
  | some (.textNode _) => .error "relationships could not be resolved"

/-- The decoded settings part: location, relationships and the parsed
flag. -/
structure SettingsModel where
  location : String
  relationships : Relationships
  isTrackChangesEnabled : Bool
deriving DecidableEq, Repr

/-- Source `Settings.fromArchive`: try the companion resource and
fall back (with a logged warning) to `undefined` on failure; read the
settings XML; construct with the parsed relationships or a fresh empty
`Relationships` at the companion location. -/
def settingsFromArchive (a : Archive) (loc : String) : Option SettingsModel :=
  let relsLoc := relsLocationOf loc
  let rels : Option Relationships :=
    match Relationships.fromArchive a relsLoc with
    | .ok r => some r
    | .error _ => none
  match a.readXml loc with
  | none => none
  | some doc =>
    some ⟨loc, rels.getD ⟨relsLoc, []⟩, parseSettingsTrackChanges doc⟩

/-- A settings document with track changes recorded via `w:trackChanges`,
as the reader expects. -/
def exSettingsDoc : XmlNode :=
  .elem "w:settings" [] [.elem "w:trackChanges" [("w:val", "true")] []]

/-- An archive holding only the settings part (no `.rels` companion). -/
def exArchiveNoRels : Archive := ⟨[("word/settings.xml", exSettingsDoc)]⟩

/-- The same archive with a `.rels` companion present. -/
def exArchiveWithRels : Archive :=
  ⟨[("word/settings.xml", exSettingsDoc),
    ("word/_rels/settings.xml.rels",
      .elem "Relationships" [] [.elem "Relationship" [] []])]⟩

end SettingsPart

/-! ## Nested parameter validation

`checkForForbiddenParameters` with `isValidNumber`: the implementation file
`utilities/parameter-checking.ts` is absent from the sources (only its test
is present), so the operation is modelled from the spec: an
`InvalidParameterError` for a numeric field holding a not-a-number value
anywhere in a nested props structure, failing eagerly with the path to the
offending field. -/

namespace Params

/-- A JavaScript number as far as NaN checking goes. -/
inductive JNum where
  | nan
  | val (i : Int)
deriving DecidableEq, Repr

/-- Modelled from the spec and the test: the predicate holds exactly for
numbers that are not NaN. -/
def isValidNumber : JNum → Bool
  | .nan => false
  | .val _ => true

/-- A nested props value: primitive fields or a nested object. -/
inductive PropValue where
  | str (s : String)
  | num (n : JNum)
  | boolv (b : Bool)
  | obj (fields : List (String × PropValue))

mutual
/-- Modelled from the spec: walk the nested structure depth-first and left
to right, failing eagerly with the path of the first numeric field the
predicate rejects, and returning `true` otherwise. -/
def checkValue (pred : JNum → Bool) (path : String) :
    PropValue → Except String Bool
  | .num n => if pred n then .ok true else .error path
  | .str _ => .ok true
  | .boolv _ => .ok true
  | .obj fields => checkFields pred path fields

/-- Map `checkValue` over the fields of an object, extending the path. -/
def checkFields (pred : JNum → Bool) (path : String) :
    List (String × PropValue) → Except String Bool
  | [] => .ok true
  | (k, v) :: rest =>
    match checkValue pred (path ++ "." ++ k) v with
    | .error e => .error e
    | .ok _ => checkFields pred path rest
end

/-- Modelled from the spec: `checkForForbiddenParameters(obj, predicate,
throwOnFail)` with `throwOnFail = true`, as the test calls it. -/
def checkForForbiddenParameters (obj : PropValue) (pred : JNum → Bool) :
    Except String Bool :=
  checkValue pred "props" obj

mutual
/-- Whether a NaN numeric field occurs anywhere in the nested structure. -/
def containsNaN : PropValue → Bool
  | .num .nan => true
  | .num (.val _) => false
  | .str _ => false
  | .boolv _ => false
  | .obj fields => containsNaNFields fields

/-- Map `containsNaN` over object fields. -/
def containsNaNFields : List (String × PropValue) → Bool
  | [] => false
  | (_, v) :: rest => containsNaN v || containsNaNFields rest
end

end Params

namespace AstNode

theorem psi_pos (t : AstNode) : 1 ≤ psi t := by
  cases t <;> simp [psi]

theorem psiList_append (a b : List AstNode) :
    psiList (a ++ b) = psiList a + psiList b := by
  induction a with
  | nil => simp [psiList]
  | cons t ts ih => simp [psiList, ih]; ring

theorem splitInvalid_none {comp : Component} {cs : List AstNode}
    (h : splitInvalid comp cs = none) : ∀ c ∈ cs, validChild comp c = true := by
  induction cs with
  | nil => simp
  | cons c cs ih =>
    intro x hx
    by_cases hc : validChild comp c
    · rcases List.mem_cons.mp hx with rfl | hx
      · exact hc
      · refine ih ?_ x hx
        rcases hs : splitInvalid comp cs with _ | ⟨a, b, d⟩
        · rfl
        · rw [splitInvalid, if_pos hc, hs] at h
          simp at h
    · rw [splitInvalid, if_neg hc] at h
      simp at h

theorem splitInvalid_some {comp : Component} {cs pre post : List AstNode}
    {bad : AstNode} (h : splitInvalid comp cs = some (pre, bad, post)) :
    cs = pre ++ bad :: post ∧ (∀ c ∈ pre, validChild comp c = true) ∧
      validChild comp bad = false := by
  induction cs generalizing pre bad post with
  | nil => simp [splitInvalid] at h
  | cons c cs ih =>
    by_cases hc : validChild comp c
    · rw [splitInvalid, if_pos hc] at h
      rcases hs : splitInvalid comp cs with _ | ⟨a, b, d⟩
      · rw [hs] at h; simp at h
      · rw [hs] at h
        simp only [Option.some.injEq, Prod.mk.injEq] at h
        obtain ⟨h1, h2, h3⟩ := h
        subst h1; subst h2; subst h3
        obtain ⟨h1, h2, h3⟩ := ih hs
        refine ⟨by simp [h1], ?_, h3⟩
        intro x hx
        rcases List.mem_cons.mp hx with rfl | hx
        · exact hc
        · exact h2 x hx
    · rw [splitInvalid, if_neg hc] at h
      simp only [Option.some.injEq, Prod.mk.injEq] at h
      obtain ⟨h1, h2, h3⟩ := h
      subst h1; subst h2; subst h3
      exact ⟨rfl, by simp, by simpa using hc⟩

theorem walkF_total : ∀ (n : Nat) (L : List AstNode), psiList L < n →
    ∃ R, walkF n L = some R ∧ psiList R ≤ psiList L := by
  intro n
  induction n using Nat.strong_induction_on with
  | _ n ih =>
    intro L hn
    obtain ⟨m, rfl⟩ : ∃ m, n = m + 1 := ⟨n - 1, by omega⟩
    have hmlt : m < m + 1 := Nat.lt_succ_self m
    rcases L with _ | ⟨t, rest⟩
    · exact ⟨[], rfl, Nat.le_refl _⟩
    rcases t with ⟨s⟩ | ⟨comp, props, cs⟩
    · have hr : psiList rest < m := by
        simp only [psiList, psi] at hn; omega
      obtain ⟨R, hR, hle⟩ := ih m hmlt rest hr
      refine ⟨.text s :: R, ?_, ?_⟩
      · simp [walkF, hR]
      · simp only [psiList, psi]; omega
    · have hcs : psiList cs < m := by
        simp only [psiList, psi] at hn; omega
      obtain ⟨cs', hcs', hcsle⟩ := ih m hmlt cs hcs
      rcases hsplit : splitInvalid comp cs' with _ | ⟨pre, bad, post⟩
      · have hr : psiList rest < m := by
          simp only [psiList, psi] at hn; omega
        obtain ⟨R, hR, hle⟩ := ih m hmlt rest hr
        refine ⟨.elem comp props cs' :: R, ?_, ?_⟩
        · simp [walkF, hcs', hsplit, hR]
        · simp only [psiList, psi] at *; omega
      · obtain ⟨hdecomp, -, -⟩ := splitInvalid_some hsplit
        have hpsis : psiList cs' = psiList pre + psi bad + psiList post := by
          rw [hdecomp, psiList_append]; simp [psiList]; ring
        have hbad1 : 1 ≤ psi bad := psi_pos bad
        have hX : psiList (bad :: .elem comp props post :: rest) < m := by
          simp only [psiList, psi] at hn ⊢
          omega
        obtain ⟨R, hR, hle⟩ := ih m hmlt _ hX
        refine ⟨.elem comp props pre :: R, ?_, ?_⟩
        · simp [walkF, hcs', hsplit, hR]
        · simp only [psiList, psi] at hle hn ⊢
          omega

theorem validForest_eq_true_iff (comp : Component) (cs : List AstNode) :
    validForest comp cs = true ↔
      ∀ c ∈ cs, validChild comp c = true ∧ validTree c = true := by
  induction cs with
  | nil => simp [validForest]
  | cons c cs ih =>
    simp [validForest, Bool.and_eq_true, ih, List.forall_mem_cons, and_assoc]

theorem walkF_valid : ∀ (n : Nat) (L R : List AstNode), walkF n L = some R →
    ∀ t ∈ R, validTree t = true := by
  intro n
  induction n with
  | zero => intro L R h; simp [walkF] at h
  | succ m ih =>
    intro L R h t ht
    rcases L with _ | ⟨u, rest⟩
    · simp only [walkF, Option.some.injEq] at h
      subst h; simp at ht
    rcases u with ⟨s⟩ | ⟨comp, props, cs⟩
    · simp only [walkF] at h
      rcases hr : walkF m rest with _ | R'
      · rw [hr] at h; simp at h
      · rw [hr] at h
        simp only [Option.map_some', Option.some.injEq] at h
        subst h
        rcases List.mem_cons.mp ht with rfl | ht
        · rfl
        · exact ih rest R' hr t ht
    · simp only [walkF] at h
      rcases hcs : walkF m cs with _ | cs'
      · rw [hcs] at h; simp at h
      rw [hcs] at h
      simp only at h
      rcases hsplit : splitInvalid comp cs' with _ | ⟨pre, bad, post⟩
      · rw [hsplit] at h
        simp only at h
        rcases hr : walkF m rest with _ | R'
        · rw [hr] at h; simp at h
        · rw [hr] at h
          simp only [Option.map_some', Option.some.injEq] at h
          subst h
          rcases List.mem_cons.mp ht with rfl | ht
          · show validForest comp cs' = true
            rw [validForest_eq_true_iff]
            intro c hc
            exact ⟨splitInvalid_none hsplit c hc, ih cs cs' hcs c hc⟩
          · exact ih rest R' hr t ht
      · rw [hsplit] at h
        simp only at h
        rcases hr : walkF m (bad :: .elem comp props post :: rest) with _ | R'
        · rw [hr] at h; simp at h
        · rw [hr] at h
          simp only [Option.map_some', Option.some.injEq] at h
          subst h
          obtain ⟨hdecomp, hpre, -⟩ := splitInvalid_some hsplit
          rcases List.mem_cons.mp ht with rfl | ht
          · show validForest comp pre = true
            rw [validForest_eq_true_iff]
            intro c hc
            have hmem : c ∈ cs' := by rw [hdecomp]; exact List.mem_append_left _ hc
            exact ⟨hpre c hc, ih cs cs' hcs c hmem⟩
          · exact ih _ R' hr t ht

theorem textsList_append (a b : List AstNode) :
    textsList (a ++ b) = textsList a ++ textsList b := by
  induction a with
  | nil => simp [textsList]
  | cons t ts ih => simp [textsList, ih]

theorem walkF_texts : ∀ (n : Nat) (L R : List AstNode), walkF n L = some R →
    textsList R = textsList L := by
  intro n
  induction n with
  | zero => intro L R h; simp [walkF] at h
  | succ m ih =>
    intro L R h
    rcases L with _ | ⟨u, rest⟩
    · simp only [walkF, Option.some.injEq] at h
      subst h; rfl
    rcases u with ⟨s⟩ | ⟨comp, props, cs⟩
    · simp only [walkF] at h
      rcases hr : walkF m rest with _ | R'
      · rw [hr] at h; simp at h
      · rw [hr] at h
        simp only [Option.map_some', Option.some.injEq] at h
        subst h
        simp only [textsList, texts]
        rw [ih rest R' hr]
    · simp only [walkF] at h
      rcases hcs : walkF m cs with _ | cs'
      · rw [hcs] at h; simp at h
      rw [hcs] at h
      simp only at h
      rcases hsplit : splitInvalid comp cs' with _ | ⟨pre, bad, post⟩
      · rw [hsplit] at h
        simp only at h
        rcases hr : walkF m rest with _ | R'
        · rw [hr] at h; simp at h
        · rw [hr] at h
          simp only [Option.map_some', Option.some.injEq] at h
          subst h
          simp only [textsList, texts]
          rw [ih rest R' hr, ih cs cs' hcs]
      · rw [hsplit] at h
        simp only at h
        rcases hr : walkF m (bad :: .elem comp props post :: rest) with _ | R'
        · rw [hr] at h; simp at h
        · rw [hr] at h
          simp only [Option.map_some', Option.some.injEq] at h
          subst h
          obtain ⟨hdecomp, -, -⟩ := splitInvalid_some hsplit
          have hcs'texts : textsList cs' = textsList cs := ih cs cs' hcs
          have hR' := ih _ R' hr
          simp only [textsList, texts] at hR' ⊢
          rw [hR', ← hcs'texts, hdecomp, textsList_append]
          simp [textsList]

/-- Claim C2: for every input tree on which repair succeeds, the repaired
tree satisfies the accepted-children invariant everywhere: each node's
children are each either of a type named in the node's component's
accepted-children list, or raw text under a component with mixed content
allowed. -/
theorem repair_satisfies_accepted_children_invariant (t r : AstNode)
    (h : bumpInvalidChildrenToAncestry t = .ok r) : validTree r = true := by
  unfold bumpInvalidChildrenToAncestry at h
  rcases hw : walkF (psiList [t] + 1) [t] with _ | R
  · rw [hw] at h; simp at h
  · rw [hw] at h
    match R, h with
    | [r'], h =>
      simp only [Except.ok.injEq] at h
      subst h
      exact walkF_valid _ [t] [r'] hw r' (List.mem_singleton.mpr rfl)
    | [], h => simp at h
    | r' :: r'' :: rs, h => simp at h

/-- Witness for claim C2: repairing the spec's paragraph/illegal-block
scenario succeeds, and the repaired tree satisfies the invariant. -/
theorem repair_satisfies_accepted_children_invariant_witness :
    bumpInvalidChildrenToAncestry exTree = .ok exRepaired ∧
      validTree exRepaired = true :=
  ⟨rfl, repair_satisfies_accepted_children_invariant exTree exRepaired rfl⟩

/-- Claim C3: repair is content-preserving: for every input tree on which
repair succeeds, the sequence of raw text leaves of the repaired tree, in
left-to-right order, equals that of the input tree (hence the multiset of
leaf text is identical and no leaf is lost or reordered). -/
theorem repair_preserves_leaf_texts (t r : AstNode)
    (h : bumpInvalidChildrenToAncestry t = .ok r) : texts r = texts t := by
  unfold bumpInvalidChildrenToAncestry at h
  rcases hw : walkF (psiList [t] + 1) [t] with _ | R
  · rw [hw] at h; simp at h
  · rw [hw] at h
    match R, h with
    | [r'], h =>
      simp only [Except.ok.injEq] at h
      subst h
      have := walkF_texts _ [t] [r'] hw
      simpa [textsList] using this
    | [], h => simp at h
    | r' :: r'' :: rs, h => simp at h

/-- Witness for claim C3: in the paragraph/illegal-block scenario the leaf
texts before and after repair agree. -/
theorem repair_preserves_leaf_texts_witness :
    bumpInvalidChildrenToAncestry exTree = .ok exRepaired ∧
      texts exRepaired = texts exTree :=
  ⟨rfl, repair_preserves_leaf_texts exTree exRepaired rfl⟩

/-- Claim C4: for every input tree, repair either returns exactly one
top-level root node, or throws the `DXE030` structural repair error; it never
silently returns with more than one (or zero) top-level siblings. -/
theorem repair_single_root_or_structural_error (t : AstNode) :
    (∃ r, bumpInvalidChildrenToAncestry t = .ok r) ∨
      bumpInvalidChildrenToAncestry t =
        .error "DXE030: Some AST nodes could not be given a valid position." := by
  obtain ⟨R, hR, -⟩ :=
    walkF_total (psiList [t] + 1) [t] (Nat.lt_succ_self _)
  unfold bumpInvalidChildrenToAncestry
  rw [hR]
  match R with
  | [] => exact Or.inr rfl
  | [r] => exact Or.inl ⟨r, rfl⟩
  | r :: r' :: rs => exact Or.inr rfl

end AstNode

namespace Flatten

theorem filter_truthy_append_stable (acc l : List JSVal)
    (h : acc.filter JSVal.truthy = acc) :
    (acc ++ l.filter JSVal.truthy).filter JSVal.truthy =
      acc ++ l.filter JSVal.truthy := by
  simp [List.filter_append, h, List.filter_filter]

mutual
theorem recursiveFlattenArray_spec :
    ∀ (flat : List JSVal), flat.filter JSVal.truthy = flat →
      ∀ (item : Child), recursiveFlattenArray flat item =
        flat ++ (declarationOrder item).filter JSVal.truthy
  | flat, hf, .prom c => by
    have h := recursiveFlattenArray_spec flat hf c
    simp only [recursiveFlattenArray, declarationOrder]
    exact h
  | flat, hf, .atom v => by
    simp [recursiveFlattenArray, declarationOrder, List.filter_append, hf]
  | flat, hf, .arr items => by
    have h := reduceFlatten_spec [] rfl items
    simp only [recursiveFlattenArray, declarationOrder]
    simpa using h

theorem reduceFlatten_spec :
    ∀ (acc : List JSVal), acc.filter JSVal.truthy = acc →
      ∀ (items : List Child), reduceFlatten acc items =
        acc ++ (declarationOrderList items).filter JSVal.truthy
  | acc, ha, [] => by simp [reduceFlatten, declarationOrderList]
  | acc, ha, c :: cs => by
    rw [reduceFlatten, recursiveFlattenArray_spec acc ha c,
      reduceFlatten_spec (acc ++ (declarationOrder c).filter JSVal.truthy)
        (filter_truthy_append_stable acc _ ha) cs]
    simp [declarationOrderList, List.filter_append]
end

theorem ensureFlat_eq_filter (c : Child) :
    ensureFlatResolvedArray c = (declarationOrder c).filter JSVal.truthy := by
  have key : recursiveFlattenArray [] c =
      (declarationOrder c).filter JSVal.truthy := by
    simpa using recursiveFlattenArray_spec [] rfl c
  match c with
  | .atom .undef => rfl
  | .atom .jsNull => rfl
  | .atom (.jsBool b) => exact key
  | .atom (.num n) => exact key
  | .atom (.str s) => exact key
  | .atom (.obj i) => exact key
  | .arr items => exact key
  | .prom c => exact key

/-- Claim C7: for every nested, possibly promise-wrapped child structure
whose items are all truthy, `ensureFlatResolvedArray` returns the flat list
of items in their original declaration order. Promise resolution timing
cannot affect the result: the source awaits items one by one through a
sequential `reduce`, modelled here by resolved wrappers. -/
theorem ensureFlatResolvedArray_declaration_order (c : Child)
    (h : ∀ v ∈ declarationOrder c, JSVal.truthy v = true) :
    ensureFlatResolvedArray c = declarationOrder c := by
  rw [ensureFlat_eq_filter]
  exact List.filter_eq_self.mpr h

/-- Witness for claim C7: a nested structure of arrays and promises with
all-truthy atoms flattens to its declaration-order atom list. -/
theorem ensureFlatResolvedArray_declaration_order_witness :
    (∀ v ∈ declarationOrder exChildren, JSVal.truthy v = true) ∧
      ensureFlatResolvedArray exChildren = declarationOrder exChildren :=
  ⟨by decide, ensureFlatResolvedArray_declaration_order exChildren (by decide)⟩

/-- Claim C10 (implicit behaviour): the flattener drops every falsy item —
its output is exactly the declaration-order atom list with falsy values
(`false`, `0`, the empty string, `null`, `undefined`) filtered out; in
particular a list containing each falsy kind and the number 7 flattens to
just `[7]`. -/
theorem ensureFlatResolvedArray_omits_falsy :
    (∀ c, ensureFlatResolvedArray c =
      (declarationOrder c).filter JSVal.truthy) ∧
      ensureFlatResolvedArray exFalsy = [.num 7] :=
  ⟨ensureFlat_eq_filter, by decide⟩

end Flatten

namespace Xml

/-- Claim C1 (evaluation at the failing input): a `TextAddition` whose
single child is itself a `TextAddition` — an accepted child per the
component's static `children` list — does not round-trip: `toNode` encodes
the child as a `w:ins` element, but `fromNode` selects only `./w:r` child
elements (unlike `Paragraph.fromNode`, which selects
`./(w:r | w:del | w:ins)`), so decoding the encoded node yields a
`TextAddition` with no children at all. -/
theorem textAddition_decode_of_encode_drops_tracked_children :
    textAdditionFromNode (DocNode.toNode exIns) =
      .ok (.textAddition exChange []) ∧
    exIns = .textAddition exChange [.textAddition ⟨"2", "B", 0⟩ []] := by
  refine ⟨?_, rfl⟩
  have hTo : DocNode.toNode exIns = .elem "w:ins"
      [("w:id", "1"), ("w:author", "A"), ("w:date", isoOfMs 1577836800000)]
      [.elem "w:ins" [("w:id", "2"), ("w:author", "B"), ("w:date", isoOfMs 0)] []] := rfl
  have hg : getChangeInformation (DocNode.toNode exIns) = some exChange := rfl
  rw [hTo] at hg ⊢
  rw [textAdditionFromNode, hg]
  simp [decodeSelected, elemNameIn]

/-- Counterexample to claim C6 as stated: the child `w:bookmarkStart` of a
`w:p` element matches none of the paragraph's accepted candidate types (the
dispatcher would report `NoMatchingTypeError` on it), yet decoding the
paragraph succeeds and silently omits that child instead of failing. -/
theorem paragraph_decode_silently_drops_unmatched_child :
    dispatchDecode trackedCandidates exAlien = .error .noMatchingType ∧
    paragraphFromNode exParagraphNode = .ok ⟨none, [.text "x"]⟩ := by
  constructor
  · rw [dispatchDecode]
    rfl
  · show paragraphFromNode (.elem "w:p" []
      [exAlien, .elem "w:r" [] [.elem "w:t" [] [.textNode "x"]]]) = _
    rw [paragraphFromNode]
    have hsel : decodeSelected ["w:r", "w:del", "w:ins"] trackedCandidates
        [exAlien, .elem "w:r" [] [.elem "w:t" [] [.textNode "x"]]] =
        .ok [.text "x"] := by
      rw [decodeSelected]
      have : elemNameIn ["w:r", "w:del", "w:ins"] exAlien = false := rfl
      rw [this]
      simp only [Bool.false_eq_true, if_false]
      rw [decodeSelected]
      have h2 : elemNameIn ["w:r", "w:del", "w:ins"]
          (.elem "w:r" [] [.elem "w:t" [] [.textNode "x"]]) = true := rfl
      rw [h2]
      simp only [if_true]
      rw [dispatchDecode]
      have h3 : trackedCandidates.find?
          (fun c => matchesName c (.elem "w:r" [] [.elem "w:t" [] [.textNode "x"]])) =
          some "Text" := rfl
      rw [h3]
      have h4 : decodeComponent "Text"
          (.elem "w:r" [] [.elem "w:t" [] [.textNode "x"]]) =
          textFromNode (.elem "w:r" [] [.elem "w:t" [] [.textNode "x"]]) := by
        rw [decodeComponent.eq_def]
        rfl
      simp only []
      rw [h4, textFromNode]
      rw [decodeSelected]
      rfl
    rw [hsel]
    rfl

/-- Claim C6 as amended: the decode dispatcher itself fails with
`NoMatchingTypeError` on a node that no accepted candidate matches; but
`Paragraph.fromNode` only hands the dispatcher children pre-selected by the
XPath `./(w:r | w:del | w:ins)` (with `./w:pPr` read separately as the
property bag), so any other child element of `w:p` is silently omitted
rather than making decoding fail. -/
theorem dispatch_errors_on_no_match_but_paragraph_skips_unselected
    (cands : List String) (n : XmlNode)
    (attrs aAttrs : List (String × String)) (nm : String)
    (aCs rest : List XmlNode)
    (h1 : ∀ c ∈ cands, matchesName c n = false)
    (h2 : nm ∉ ["w:r", "w:del", "w:ins", "w:pPr"]) :
    dispatchDecode cands n = .error .noMatchingType ∧
      paragraphFromNode (.elem "w:p" attrs (.elem nm aAttrs aCs :: rest)) =
        paragraphFromNode (.elem "w:p" attrs rest) := by
  have hnotr : nm ≠ "w:r" := by intro h; exact h2 (by simp [h])
  have hnotd : nm ≠ "w:del" := by intro h; exact h2 (by simp [h])
  have hnoti : nm ≠ "w:ins" := by intro h; exact h2 (by simp [h])
  have hnotp : nm ≠ "w:pPr" := by intro h; exact h2 (by simp [h])
  constructor
  · rw [dispatchDecode]
    rw [List.find?_eq_none.mpr (fun c hc => by simp [h1 c hc])]
  · have hskip : elemNameIn ["w:r", "w:del", "w:ins"] (.elem nm aAttrs aCs) = false := by
      simp [elemNameIn, hnotr, hnotd, hnoti]
    have hpprskip : elemNameIn ["w:pPr"] (.elem nm aAttrs aCs) = false := by
      simp [elemNameIn, hnotp]
    rw [paragraphFromNode, paragraphFromNode, decodeSelected, hskip]
    simp only [Bool.false_eq_true, if_false, styleOf, List.find?]
    rw [hpprskip]

/-- Witness for the amended claim C6 at a concrete input: `w:bookmarkEnd`
matches no candidate, and a paragraph containing it decodes exactly like the
paragraph without it. -/
theorem dispatch_errors_on_no_match_but_paragraph_skips_unselected_witness :
    dispatchDecode ["Text", "TextAddition", "TextDeletion"]
        (.elem "w:bookmarkEnd" [] []) = .error .noMatchingType ∧
      paragraphFromNode (.elem "w:p" [] [.elem "w:bookmarkEnd" [] []]) =
        paragraphFromNode (.elem "w:p" [] []) :=
  dispatch_errors_on_no_match_but_paragraph_skips_unselected
    ["Text", "TextAddition", "TextDeletion"] (.elem "w:bookmarkEnd" [] [])
    [] [] "w:bookmarkEnd" [] [] (by decide) (by decide)

end Xml

namespace SettingsPart

/-- Claim C5 (evaluation at the failing input): the settings writer and
reader use different elements of the track-changes family. With
`isTrackChangesEnabled = true` the writer emits a `w:trackRevisions`
element, but the reader queries `./w:trackChanges/@w:val`, so parsing the
written settings yields `false` — the flag does not round-trip. -/
theorem settings_track_changes_roundtrip_fails :
    settingsToNode true =
      .elem "w:settings" [] [.elem "w:trackRevisions" [] []] ∧
    parseSettingsTrackChanges (settingsToNode true) = false :=
  ⟨rfl, rfl⟩

/-- Claim C8: when the sibling `.rels` companion resource is absent,
parsing the settings part does not fail: the part is constructed with an
empty relationship set at the companion location, and the parsed settings
content is the same as it would be with the `.rels` present. -/
theorem settings_fromArchive_tolerates_missing_rels
    (a b : Archive) (loc : String) (doc relsDoc : Xml.XmlNode)
    (ha1 : a.readXml loc = some doc)
    (ha2 : a.readXml (relsLocationOf loc) = none)
    (hb1 : b.readXml loc = some doc)
    (hb2 : b.readXml (relsLocationOf loc) = some relsDoc) :
    settingsFromArchive a loc =
      some ⟨loc, ⟨relsLocationOf loc, []⟩, parseSettingsTrackChanges doc⟩ ∧
    (settingsFromArchive b loc).map (fun s => s.isTrackChangesEnabled) =
      some (parseSettingsTrackChanges doc) := by
  constructor
  · simp [settingsFromArchive, Relationships.fromArchive, ha1, ha2]
  · rcases relsDoc with ⟨nm, ats, cs⟩ | s <;>
      simp [settingsFromArchive, Relationships.fromArchive, hb1, hb2]

/-- Witness for claim C8: a concrete archive without the companion resource
parses to the settings with an empty relationship set, and a concrete
archive with the companion present parses the same flag. -/
theorem settings_fromArchive_tolerates_missing_rels_witness :
    settingsFromArchive exArchiveNoRels "word/settings.xml" =
      some ⟨"word/settings.xml", ⟨relsLocationOf "word/settings.xml", []⟩,
        parseSettingsTrackChanges exSettingsDoc⟩ ∧
    (settingsFromArchive exArchiveWithRels "word/settings.xml").map
        (fun s => s.isTrackChangesEnabled) =
      some (parseSettingsTrackChanges exSettingsDoc) :=
  settings_fromArchive_tolerates_missing_rels exArchiveNoRels
    exArchiveWithRels "word/settings.xml" exSettingsDoc
    (.elem "Relationships" [] [.elem "Relationship" [] []])
    rfl rfl rfl rfl

end SettingsPart

namespace Params

mutual
theorem checkValue_ok :
    ∀ (path : String) (v : PropValue), containsNaN v = false →
      checkValue isValidNumber path v = .ok true
  | path, .num .nan, h => by simp [containsNaN] at h
  | path, .num (.val i), _ => by simp [checkValue, isValidNumber]
  | path, .str s, _ => rfl
  | path, .boolv b, _ => rfl
  | path, .obj fields, h => by
    simp only [containsNaN] at h
    have hf := checkFields_ok path fields h
    simp only [checkValue]
    exact hf

theorem checkFields_ok :
    ∀ (path : String) (fs : List (String × PropValue)),
      containsNaNFields fs = false →
      checkFields isValidNumber path fs = .ok true
  | path, [], _ => rfl
  | path, (k, v) :: rest, h => by
    simp only [containsNaNFields, Bool.or_eq_false_iff] at h
    rw [checkFields, checkValue_ok _ v h.1]
    exact checkFields_ok path rest h.2
end

mutual
theorem checkValue_error :
    ∀ (path : String) (v : PropValue), containsNaN v = true →
      ∃ p, checkValue isValidNumber path v = .error p
  | path, .num .nan, _ => ⟨path, rfl⟩
  | path, .num (.val i), h => by simp [containsNaN] at h
  | path, .str s, h => by simp [containsNaN] at h
  | path, .boolv b, h => by simp [containsNaN] at h
  | path, .obj fields, h => by
    simp only [containsNaN] at h
    obtain ⟨p, hp⟩ := checkFields_error path fields h
    exact ⟨p, by simp only [checkValue]; exact hp⟩

theorem checkFields_error :
    ∀ (path : String) (fs : List (String × PropValue)),
      containsNaNFields fs = true →
      ∃ p, checkFields isValidNumber path fs = .error p
  | path, [], h => by simp [containsNaNFields] at h
  | path, (k, v) :: rest, h => by
    cases hv : containsNaN v with
    | true =>
      obtain ⟨p, hp⟩ := checkValue_error (path ++ "." ++ k) v hv
      exact ⟨p, by rw [checkFields, hp]⟩
    | false =>
      have hr : containsNaNFields rest = true := by
        simp only [containsNaNFields, hv, Bool.false_or] at h
        exact h
      obtain ⟨p, hp⟩ := checkFields_error path rest hr
      refine ⟨p, ?_⟩
      rw [checkFields, checkValue_ok _ v hv]
      exact hp
end

/-- Claim C9: `checkForForbiddenParameters` with the `isValidNumber`
predicate accepts (returns `true` for) a nested props object exactly when no
numeric field anywhere in it holds NaN, and fails with the path of an
offending field exactly when one does. -/
theorem checkForForbiddenParameters_rejects_nan (v : PropValue) :
    (checkForForbiddenParameters v isValidNumber = .ok true ↔
      containsNaN v = false) ∧
    ((∃ p, checkForForbiddenParameters v isValidNumber = .error p) ↔
      containsNaN v = true) := by
  constructor
  · constructor
    · intro h
      cases hv : containsNaN v with
      | false => rfl
      | true =>
        obtain ⟨p, hp⟩ := checkValue_error "props" v hv
        rw [checkForForbiddenParameters, hp] at h
        exact absurd h (by simp)
    · intro h
      exact checkValue_ok "props" v h
  · constructor
    · rintro ⟨p, hp⟩
      cases hv : containsNaN v with
      | true => rfl
      | false =>
        rw [checkForForbiddenParameters, checkValue_ok "props" v hv] at hp
        exact absurd hp (by simp)
    · intro h
      exact checkValue_error "props" v h

end Params

end Docxml
